import Mathlib

/-!
Verification of the weaviate query-execution core: inverted-index posting-list
merging (`adapters/repos/db/inverted/prop_value_pairs.go`), leaf posting-list
fetching, the aggregator's top-N grouper, the write-ahead-log recovery
protocol of the LSM storage layer, and the filter value-tag validation.

Go source constructs are embedded shallowly: byte slices become `List Nat`,
`uint64` document IDs become `Nat` (no arithmetic overflows occur in the
embedded code paths: the counters only ever count list elements), Go maps
become insertion-ordered association lists (Go map iteration order is
unspecified; no proved property depends on the order we fix), and fallible
functions return `Except String`.
-/

namespace Weaviate

/-- A single entry of a posting list (`docPointer` in
`adapters/repos/db/inverted/prop_value_pairs.go`). The Go struct also carries
an optional term frequency which none of the merge logic reads; it is omitted
here. -/
structure DocPointer where
  id : Nat
  deriving DecidableEq, Repr

/-- A posting list (`docPointers`): the doc-ID entries plus a content-derived
checksum (raw bytes, modelled as a list of byte values). -/
structure DocPointers where
  docIDs : List DocPointer
  checksum : List Nat
  deriving DecidableEq, Repr

instance : Inhabited DocPointers := ⟨⟨[], []⟩⟩

/-- `checksumsIdentical` from `prop_value_pairs.go`: no sets → false, a single
set → trivially identical, otherwise every set's checksum must be
byte-for-byte equal (`bytes.Equal`) to the first set's checksum. -/
def checksumsIdentical (sets : List DocPointers) : Bool :=
  match sets with
  | [] => false
  | [_] => true
  | s0 :: rest => (s0 :: rest).all (fun s => s.checksum = s0.checksum)

/-- One step of the Go tally loop `found[pointer.id]++` on the association
list modelling the `map[uint64]uint64`. -/
def bumpCount : List (Nat × Nat) → Nat → List (Nat × Nat)
  | [], i => [(i, 1)]
  | (k, c) :: rest, i =>
    if k = i then (k, c + 1) :: rest else (k, c) :: bumpCount rest i

/-- The tally pass shared by `mergeAnd` and `mergeOr`: for every set, for
every pointer, increment the count of the pointer's id. -/
def tallyIDs (sets : List DocPointers) : List (Nat × Nat) :=
  sets.foldl (fun acc s => s.docIDs.foldl (fun acc2 p => bumpCount acc2 p.id) acc) []

/-- Modelled from the spec: `docPointerChecksum` (its implementation is not
under src/) computes a digest over the canonically sorted document-ID
sequence; we model the digest as that sorted sequence itself. -/
def docPointerChecksum (ids : List Nat) : List Nat :=
  ids.insertionSort (· ≤ ·)

/-- Byte tag distinguishing the OR operator in combined checksums. -/
def orChecksumTag : Nat := 1

/-- Modelled from the spec: `combineChecksums` (its implementation is not
under src/) combines the children's checksums into an order-independent
digest tagged with the merging operator. -/
def combineChecksums (checksums : List (List Nat)) (opTag : Nat) : List Nat :=
  opTag :: checksums.flatten.insertionSort (· ≤ ·)

/-- `mergeAnd` from `prop_value_pairs.go`, lines 99-151, over the children's
already-retrieved posting lists (the function's initial loop retrieves
`sets[i] = children[i].mergeDocIDs(...)`; the claims quantify over those
lists directly). If all checksums are identical the first set is returned
unchanged; otherwise ids are tallied across all sets and exactly the ids
whose count equals the number of sets survive, with a fresh checksum. -/
def mergeAnd (sets : List DocPointers) : DocPointers :=
  if checksumsIdentical sets then sets.headI
  else
    let found := tallyIDs sets
    let surviving := found.filter (fun e => e.2 = sets.length)
    { docIDs := surviving.map (fun e => { id := e.1 }),
      checksum := docPointerChecksum (surviving.map (fun e => e.1)) }

/-- Modelled from the spec: the duplicate-tolerant OR merge
(`mergeOrAcceptDuplicates`, implementation not under src/) skips
deduplication and concatenates the children's entries. -/
def mergeOrAcceptDuplicates (sets : List DocPointers) : DocPointers :=
  { docIDs := (sets.map (fun s => s.docIDs)).flatten,
    checksum := combineChecksums (sets.map (fun s => s.checksum)) orChecksumTag }

/-- `mergeOr` from `prop_value_pairs.go`, lines 153-199, over the children's
already-retrieved posting lists: identical checksums return the first set
unchanged; with `acceptDuplicates` the duplicate-tolerant variant runs;
otherwise ids are tallied and every id seen at least once is emitted once,
with the children's checksums combined. -/
def mergeOr (acceptDuplicates : Bool) (sets : List DocPointers) : DocPointers :=
  if checksumsIdentical sets then sets.headI
  else if acceptDuplicates then mergeOrAcceptDuplicates sets
  else
    let found := tallyIDs sets
    { docIDs := found.map (fun e => { id := e.1 }),
      checksum := combineChecksums (sets.map (fun s => s.checksum)) orChecksumTag }

/-- Total number of occurrences of id `i` across all sets. -/
def countTotal (sets : List DocPointers) (i : Nat) : Nat :=
  ((sets.map (fun s => s.docIDs.map (fun p => p.id))).flatten).count i

/-- Lookup of the tally of `i` in the association list (0 when absent). -/
def countOf : List (Nat × Nat) → Nat → Nat
  | [], _ => 0
  | (k, c) :: rest, i => if k = i then c else countOf rest i

/-- Structural invariant of the tally list: keys are unique and every
recorded count is positive. -/
def TallyWf (l : List (Nat × Nat)) : Prop :=
  (l.map Prod.fst).Nodup ∧ ∀ e ∈ l, 0 < e.2

theorem countOf_bumpCount_self (l : List (Nat × Nat)) (i : Nat) :
    countOf (bumpCount l i) i = countOf l i + 1 := by
  induction l with
  | nil => simp [bumpCount, countOf]
  | cons e rest ih =>
    obtain ⟨k, c⟩ := e
    by_cases hk : k = i
    · simp [bumpCount, countOf, hk]
    · simp [bumpCount, countOf, hk, ih]

theorem countOf_bumpCount_ne (l : List (Nat × Nat)) (i j : Nat) (h : j ≠ i) :
    countOf (bumpCount l i) j = countOf l j := by
  have hij : ¬ i = j := fun hc => h hc.symm
  induction l with
  | nil => simp [bumpCount, countOf, hij]
  | cons e rest ih =>
    obtain ⟨k, c⟩ := e
    by_cases hk : k = i
    · subst hk
      simp [bumpCount, countOf, hij]
    · simp [bumpCount, countOf, hk, ih]

theorem map_fst_bumpCount (l : List (Nat × Nat)) (i : Nat) :
    (bumpCount l i).map Prod.fst =
      if i ∈ l.map Prod.fst then l.map Prod.fst else l.map Prod.fst ++ [i] := by
  induction l with
  | nil => simp [bumpCount]
  | cons e rest ih =>
    obtain ⟨k, c⟩ := e
    by_cases hk : k = i
    · simp [bumpCount, hk]
    · have hki : ¬ i = k := fun hc => hk hc.symm
      by_cases hm : i ∈ rest.map Prod.fst
      · simp [bumpCount, hk, hm, hki, ih]
      · simp [bumpCount, hk, hm, hki, ih]

theorem tallyWf_bumpCount (l : List (Nat × Nat)) (i : Nat) (h : TallyWf l) :
    TallyWf (bumpCount l i) := by
  obtain ⟨hkeys, hpos⟩ := h
  constructor
  · rw [map_fst_bumpCount]
    by_cases hm : i ∈ l.map Prod.fst
    · simpa [hm] using hkeys
    · simp only [hm, if_false]
      refine List.Nodup.append hkeys (List.nodup_singleton i) ?_
      intro a ha hai
      rw [List.mem_singleton] at hai
      subst hai
      exact hm ha
  · intro e he
    induction l with
    | nil => simp [bumpCount] at he; simp [he]
    | cons f rest ih =>
      obtain ⟨k, c⟩ := f
      by_cases hk : k = i
      · simp only [bumpCount, hk, if_pos rfl] at he
        rcases List.mem_cons.mp he with h1 | h1
        · simp [h1]
        · exact hpos e (List.mem_cons_of_mem _ h1)
      · simp only [bumpCount, hk, if_neg hk] at he
        rcases List.mem_cons.mp he with h1 | h1
        · exact h1 ▸ hpos (k, c) (List.mem_cons_self _ _)
        · exact ih (by
            rw [List.map_cons] at hkeys
            exact (List.nodup_cons.mp hkeys).2)
            (fun e' he' => hpos e' (List.mem_cons_of_mem _ he')) h1

theorem mem_tally_iff (l : List (Nat × Nat)) (hwf : TallyWf l) (j c : Nat) :
    (j, c) ∈ l ↔ countOf l j = c ∧ 0 < c := by
  induction l with
  | nil => simp [countOf]; omega
  | cons e rest ih =>
    obtain ⟨k, c0⟩ := e
    obtain ⟨hkeys, hpos⟩ := hwf
    rw [List.map_cons, List.nodup_cons] at hkeys
    have hwf' : TallyWf rest :=
      ⟨hkeys.2, fun e' he' => hpos e' (List.mem_cons_of_mem _ he')⟩
    by_cases hk : k = j
    · subst hk
      have hnot : ∀ c', (k, c') ∉ rest := by
        intro c' hc'
        exact hkeys.1 (List.mem_map.mpr ⟨(k, c'), hc', rfl⟩)
      constructor
      · intro hmem
        rcases List.mem_cons.mp hmem with h1 | h1
        · have : c0 = c := congrArg Prod.snd h1.symm
          subst this
          exact ⟨by simp [countOf], hpos (k, c0) (List.mem_cons_self _ _)⟩
        · exact absurd h1 (hnot c)
      · rintro ⟨h1, h2⟩
        simp only [countOf, if_pos rfl] at h1
        subst h1
        exact List.mem_cons_self _ _
    · rw [List.mem_cons]
      have : ¬ ((j, c) = (k, c0)) := by
        intro hc
        exact hk (congrArg Prod.fst hc).symm
      simp only [this, false_or]
      rw [ih hwf']
      simp [countOf, hk]

theorem countOf_foldl_ids (ids : List Nat) (l : List (Nat × Nat)) (j : Nat) :
    countOf (ids.foldl bumpCount l) j = countOf l j + ids.count j := by
  induction ids generalizing l with
  | nil => simp
  | cons i rest ih =>
    by_cases hj : j = i
    · subst hj
      simp [List.foldl_cons, ih, countOf_bumpCount_self, List.count_cons]
      omega
    · have hne : (i == j) = false := by
        simp [beq_iff_eq]
        exact fun hc => hj hc.symm
      simp [List.foldl_cons, ih, countOf_bumpCount_ne l i j hj, List.count_cons, hne]

theorem tallyWf_foldl_ids (ids : List Nat) (l : List (Nat × Nat)) (h : TallyWf l) :
    TallyWf (ids.foldl bumpCount l) := by
  induction ids generalizing l with
  | nil => simpa
  | cons i rest ih => exact ih _ (tallyWf_bumpCount l i h)

theorem tallyIDs_eq_foldl_flatten (sets : List DocPointers) :
    tallyIDs sets =
      ((sets.map (fun s => s.docIDs.map (fun p => p.id))).flatten).foldl bumpCount [] := by
  rw [List.foldl_flatten, List.foldl_map]
  unfold tallyIDs
  congr 1
  funext acc s
  rw [List.foldl_map]

theorem countOf_tallyIDs (sets : List DocPointers) (j : Nat) :
    countOf (tallyIDs sets) j = countTotal sets j := by
  rw [tallyIDs_eq_foldl_flatten, countOf_foldl_ids]
  simp [countOf, countTotal]

theorem tallyWf_tallyIDs (sets : List DocPointers) : TallyWf (tallyIDs sets) := by
  rw [tallyIDs_eq_foldl_flatten]
  exact tallyWf_foldl_ids _ _ ⟨List.nodup_nil, by simp⟩

theorem checksumsIdentical_of_all_eq (sets : List DocPointers) (hne : sets ≠ [])
    (h : ∀ s ∈ sets, s.checksum = sets.headI.checksum) :
    checksumsIdentical sets = true := by
  match sets with
  | [] => exact absurd rfl hne
  | [_] => rfl
  | s0 :: s1 :: rest =>
    simp only [checksumsIdentical, List.all_eq_true, decide_eq_true_eq]
    intro s hs
    simpa [List.headI] using h s hs

/-- Helper: the id of a merged-result entry. -/
theorem sum_le_length (l : List Nat) (h : ∀ x ∈ l, x ≤ 1) : l.sum ≤ l.length := by
  induction l with
  | nil => simp
  | cons a rest ih =>
    simp only [List.sum_cons, List.length_cons]
    have h1 := h a (by simp)
    have h2 := ih (fun x hx => h x (by simp [hx]))
    omega

theorem sum_eq_length_iff_all_one (l : List Nat) (h : ∀ x ∈ l, x ≤ 1) :
    l.sum = l.length ↔ ∀ x ∈ l, x = 1 := by
  induction l with
  | nil => simp
  | cons a rest ih =>
    have ha : a ≤ 1 := h a (by simp)
    have hrest : ∀ x ∈ rest, x ≤ 1 := fun x hx => h x (by simp [hx])
    have hsum := sum_le_length rest hrest
    simp only [List.sum_cons, List.length_cons, List.mem_cons]
    constructor
    · intro hs
      have h1 : a = 1 ∧ rest.sum = rest.length := by omega
      intro x hx
      rcases hx with hxa | hxr
      · exact hxa ▸ h1.1
      · exact ((ih hrest).mp h1.2) x hxr
    · intro hall
      have h1 : a = 1 := hall a (Or.inl rfl)
      have h2 : rest.sum = rest.length := (ih hrest).mpr (fun x hx => hall x (Or.inr hx))
      omega

theorem mergeAnd_docIDs_of_not_identical (sets : List DocPointers)
    (hnid : checksumsIdentical sets = false) :
    (mergeAnd sets).docIDs =
      ((tallyIDs sets).filter (fun e => e.2 = sets.length)).map (fun e => { id := e.1 }) := by
  simp [mergeAnd, hnid]

/-- Membership of an id in the AND-merge result, characterised through the
tally: an id is emitted iff its total occurrence count equals the number of
children. -/
theorem mem_mergeAnd_iff (sets : List DocPointers)
    (hne : sets ≠ []) (hnid : checksumsIdentical sets = false) (i : Nat) :
    (∃ p ∈ (mergeAnd sets).docIDs, p.id = i) ↔ countTotal sets i = sets.length := by
  have hwf := tallyWf_tallyIDs sets
  have hlen : 0 < sets.length := List.length_pos.mpr hne
  rw [mergeAnd_docIDs_of_not_identical sets hnid]
  constructor
  · rintro ⟨p, hp, hpi⟩
    rw [List.mem_map] at hp
    obtain ⟨e, he, hpe⟩ := hp
    obtain ⟨e1, e2⟩ := e
    rw [List.mem_filter] at he
    obtain ⟨het, hen⟩ := he
    have he1 : e1 = i := by
      have := congrArg DocPointer.id hpe
      simpa [hpi] using this
    have hen' : e2 = sets.length := by simpa using hen
    subst he1
    subst hen'
    rw [mem_tally_iff _ hwf] at het
    rw [← countOf_tallyIDs]
    exact het.1
  · intro hcount
    have hmem : (i, sets.length) ∈ tallyIDs sets := by
      rw [mem_tally_iff _ hwf]
      exact ⟨by rw [countOf_tallyIDs]; exact hcount, hlen⟩
    refine ⟨⟨i⟩, ?_, rfl⟩
    rw [List.mem_map]
    exact ⟨(i, sets.length), List.mem_filter.mpr ⟨hmem, by simp⟩, rfl⟩

theorem countTotal_eq_sum (sets : List DocPointers) (i : Nat) :
    countTotal sets i = (sets.map (fun s => (s.docIDs.map (fun p => p.id)).count i)).sum := by
  rw [countTotal, List.count_flatten, List.map_map]
  rfl

/-- Children posting lists on which C1's "present in every child" reading
fails: the first child carries id 1 twice, the second only id 2. -/
def andDupSets : List DocPointers := [⟨[⟨1⟩, ⟨1⟩], [0]⟩, ⟨[⟨2⟩], [1]⟩]

/-- C1 counterexample: the claim "the merged result contains exactly those
document IDs that are present in every child" is false on `mergeAnd`: for
`andDupSets` (checksums differ) the result contains id 1 — its occurrence
count is 2, the number of children — although id 1 is absent from the second
child. -/
theorem mergeAnd_not_plain_intersection :
    ¬ (∀ i : Nat, (∃ p ∈ (mergeAnd andDupSets).docIDs, p.id = i) ↔
        (∀ s ∈ andDupSets, ∃ p ∈ s.docIDs, p.id = i)) := by
  intro h
  have h1 : ∃ p ∈ (mergeAnd andDupSets).docIDs, p.id = 1 := by decide
  have h3 : ¬ (∀ s ∈ andDupSets, ∃ p ∈ s.docIDs, p.id = 1) := by decide
  exact h3 ((h 1).mp h1)

/-- C1 (amended): for a non-empty AND child list whose checksums are not all
identical, an id is in the merged result iff its total occurrence count
across all children equals the number of children; when additionally every
child's id list is duplicate-free, this is exactly the set of ids present in
every child. -/
theorem mergeAnd_count_semantics (sets : List DocPointers)
    (hne : sets ≠ []) (hnid : checksumsIdentical sets = false) :
    (∀ i : Nat, (∃ p ∈ (mergeAnd sets).docIDs, p.id = i) ↔ countTotal sets i = sets.length)
    ∧ ((∀ s ∈ sets, (s.docIDs.map (fun p => p.id)).Nodup) →
        ∀ i : Nat, (∃ p ∈ (mergeAnd sets).docIDs, p.id = i) ↔
          (∀ s ∈ sets, ∃ p ∈ s.docIDs, p.id = i)) := by
  refine ⟨mem_mergeAnd_iff sets hne hnid, fun hnd i => ?_⟩
  rw [mem_mergeAnd_iff sets hne hnid i, countTotal_eq_sum]
  have hle : ∀ x ∈ sets.map (fun s => (s.docIDs.map (fun p => p.id)).count i), x ≤ 1 := by
    intro x hx
    rw [List.mem_map] at hx
    obtain ⟨s, hs, hxs⟩ := hx
    rw [← hxs]
    exact List.nodup_iff_count_le_one.mp (hnd s hs) i
  have hlen : (sets.map (fun s => (s.docIDs.map (fun p => p.id)).count i)).length
      = sets.length := List.length_map _ _
  rw [← hlen, sum_eq_length_iff_all_one _ hle]
  constructor
  · intro hall s hs
    have h1 := hall _ (List.mem_map.mpr ⟨s, hs, rfl⟩)
    have h2 : i ∈ s.docIDs.map (fun p => p.id) := by
      rw [← List.count_pos_iff]
      omega
    rw [List.mem_map] at h2
    obtain ⟨p, hp, hpi⟩ := h2
    exact ⟨p, hp, hpi⟩
  · intro hall x hx
    rw [List.mem_map] at hx
    obtain ⟨s, hs, hxs⟩ := hx
    obtain ⟨p, hp, hpi⟩ := hall s hs
    have hmem : i ∈ s.docIDs.map (fun p => p.id) := List.mem_map.mpr ⟨p, hp, hpi⟩
    have hpos : 0 < (s.docIDs.map (fun p => p.id)).count i := List.count_pos_iff.mpr hmem
    have hle1 : (s.docIDs.map (fun p => p.id)).count i ≤ 1 :=
      List.nodup_iff_count_le_one.mp (hnd s hs) i
    omega

/-- Witness for `mergeAnd_count_semantics` at duplicate-free children
`[{1, 2}, {2, 3}]` with distinct checksums. -/
theorem mergeAnd_count_semantics_witness :
    (∀ i : Nat, (∃ p ∈ (mergeAnd [⟨[⟨1⟩, ⟨2⟩], [0]⟩, ⟨[⟨2⟩, ⟨3⟩], [1]⟩]).docIDs, p.id = i) ↔
        countTotal [⟨[⟨1⟩, ⟨2⟩], [0]⟩, ⟨[⟨2⟩, ⟨3⟩], [1]⟩] i = 2)
    ∧ ((∀ s ∈ ([⟨[⟨1⟩, ⟨2⟩], [0]⟩, ⟨[⟨2⟩, ⟨3⟩], [1]⟩] : List DocPointers),
          (s.docIDs.map (fun p => p.id)).Nodup) →
        ∀ i : Nat,
          (∃ p ∈ (mergeAnd [⟨[⟨1⟩, ⟨2⟩], [0]⟩, ⟨[⟨2⟩, ⟨3⟩], [1]⟩]).docIDs, p.id = i) ↔
          (∀ s ∈ ([⟨[⟨1⟩, ⟨2⟩], [0]⟩, ⟨[⟨2⟩, ⟨3⟩], [1]⟩] : List DocPointers),
            ∃ p ∈ s.docIDs, p.id = i)) :=
  mergeAnd_count_semantics [⟨[⟨1⟩, ⟨2⟩], [0]⟩, ⟨[⟨2⟩, ⟨3⟩], [1]⟩]
    (by decide) (by decide)

/-- C3: for a non-empty child list whose checksums are all byte-for-byte
identical, both the AND merge and the OR merge skip merging and return the
first child's posting list unchanged. -/
theorem merge_identical_checksums_returns_first (sets : List DocPointers)
    (dup : Bool) (hne : sets ≠ [])
    (hid : ∀ s ∈ sets, s.checksum = sets.headI.checksum) :
    mergeAnd sets = sets.headI ∧ mergeOr dup sets = sets.headI := by
  have hc := checksumsIdentical_of_all_eq sets hne hid
  exact ⟨by simp [mergeAnd, hc], by simp [mergeOr, hc]⟩

/-- Witness for `merge_identical_checksums_returns_first`: two lists with
equal checksums (and even different entries) — the first is returned as is. -/
theorem merge_identical_checksums_returns_first_witness :
    mergeAnd [⟨[⟨1⟩], [7]⟩, ⟨[⟨2⟩], [7]⟩] = ⟨[⟨1⟩], [7]⟩
    ∧ mergeOr false [⟨[⟨1⟩], [7]⟩, ⟨[⟨2⟩], [7]⟩] = ⟨[⟨1⟩], [7]⟩ :=
  merge_identical_checksums_returns_first [⟨[⟨1⟩], [7]⟩, ⟨[⟨2⟩], [7]⟩] false
    (by decide) (by decide)

/-- Children posting lists on which C2's "appears exactly once" reading fails
for the duplicate-tolerant merge: id 1 occurs in both children. -/
def orDupSets : List DocPointers := [⟨[⟨1⟩], [0]⟩, ⟨[⟨1⟩, ⟨2⟩], [1]⟩]

/-- C2 counterexample: with the duplicate-tolerant OR merge, id 1 — which
occurs in at least one child of `orDupSets` (checksums differ) — appears
twice in the merged result, refuting "every ID occurring in at least one
child appears exactly once". -/
theorem mergeOr_duplicate_occurrence :
    ((mergeOr true orDupSets).docIDs.map (fun p => p.id)).count 1 = 2
    ∧ (∃ s ∈ orDupSets, ∃ p ∈ s.docIDs, p.id = 1) := by
  constructor
  · decide
  · decide

/-- C2 (amended): for an OR child list whose checksums are not all identical,
the merged result's id set equals the union of the children's ids (for either
duplicate mode), and in the deduplicating merge every id appears exactly
once. -/
theorem mergeOr_union_semantics (sets : List DocPointers) (dup : Bool)
    (hnid : checksumsIdentical sets = false) :
    (∀ i : Nat, (∃ p ∈ (mergeOr dup sets).docIDs, p.id = i) ↔
        (∃ s ∈ sets, ∃ p ∈ s.docIDs, p.id = i))
    ∧ (dup = false → ((mergeOr dup sets).docIDs.map (fun p => p.id)).Nodup) := by
  have hwf := tallyWf_tallyIDs sets
  cases dup with
  | true =>
    refine ⟨fun i => ?_, fun h => by cases h⟩
    simp only [mergeOr, hnid, Bool.false_eq_true, if_false, if_true,
      mergeOrAcceptDuplicates, List.mem_flatten, List.mem_map]
    constructor
    · rintro ⟨p, ⟨l, ⟨s, hs, hl⟩, hpl⟩, hpi⟩
      exact ⟨s, hs, p, by rw [hl]; exact hpl, hpi⟩
    · rintro ⟨s, hs, p, hp, hpi⟩
      exact ⟨p, ⟨s.docIDs, ⟨s, hs, rfl⟩, hp⟩, hpi⟩
  | false =>
    have hdoc : (mergeOr false sets).docIDs =
        (tallyIDs sets).map (fun e => { id := e.1 }) := by
      simp [mergeOr, hnid]
    constructor
    · intro i
      rw [hdoc]
      constructor
      · rintro ⟨p, hp, hpi⟩
        rw [List.mem_map] at hp
        obtain ⟨e, he, hpe⟩ := hp
        obtain ⟨e1, e2⟩ := e
        have he1 : e1 = i := by
          have := congrArg DocPointer.id hpe
          simpa [hpi] using this
        rw [mem_tally_iff _ hwf] at he
        have hpos : 0 < countTotal sets i := by
          rw [← he1, ← countOf_tallyIDs]
          omega
        have hmem : i ∈ ((sets.map (fun s => s.docIDs.map (fun p => p.id))).flatten) := by
          rw [← List.count_pos_iff]
          exact hpos
        rw [List.mem_flatten] at hmem
        obtain ⟨l, hl, hil⟩ := hmem
        rw [List.mem_map] at hl
        obtain ⟨s, hs, hls⟩ := hl
        rw [← hls, List.mem_map] at hil
        obtain ⟨p', hp', hpi'⟩ := hil
        exact ⟨s, hs, p', hp', hpi'⟩
      · rintro ⟨s, hs, p, hp, hpi⟩
        have hmem : i ∈ ((sets.map (fun s => s.docIDs.map (fun p => p.id))).flatten) := by
          rw [List.mem_flatten]
          exact ⟨s.docIDs.map (fun p => p.id), List.mem_map.mpr ⟨s, hs, rfl⟩,
            List.mem_map.mpr ⟨p, hp, hpi⟩⟩
        have hpos : 0 < countOf (tallyIDs sets) i := by
          rw [countOf_tallyIDs, countTotal]
          exact List.count_pos_iff.mpr hmem
        have : (i, countOf (tallyIDs sets) i) ∈ tallyIDs sets := by
          rw [mem_tally_iff _ hwf]
          exact ⟨rfl, hpos⟩
        exact ⟨⟨i⟩, List.mem_map.mpr ⟨(i, countOf (tallyIDs sets) i), this, rfl⟩, rfl⟩
    · intro _
      rw [hdoc, List.map_map]
      have : ((fun p : DocPointer => p.id) ∘ fun e : Nat × Nat => ({ id := e.1 } : DocPointer))
          = Prod.fst := rfl
      rw [this]
      exact hwf.1

/-- Witness for `mergeOr_union_semantics` at children `[{1}, {1, 2}]` with
distinct checksums, deduplicating mode. -/
theorem mergeOr_union_semantics_witness :
    (∀ i : Nat, (∃ p ∈ (mergeOr false orDupSets).docIDs, p.id = i) ↔
        (∃ s ∈ orDupSets, ∃ p ∈ s.docIDs, p.id = i))
    ∧ (false = false → ((mergeOr false orDupSets).docIDs.map (fun p => p.id)).Nodup) :=
  mergeOr_union_semantics orDupSets false (by decide)

/-! ### The aggregator's top-N grouper -/

/-- An aggregation group as built by the grouper (`group` in the aggregator
package; renamed since `Group` is taken by Mathlib): the group-by value and
object count carried in `res aggregation.Group`, plus the matching doc IDs. -/
structure AggGroup where
  value : String
  count : Int
  docIDs : List Nat
  deriving DecidableEq, Repr

/-- The scan loop of `insertOrdered`: entries whose count is strictly greater
than the candidate's are skipped (`continue`); the candidate is inserted in
front of the first other entry (`break`, `added = true`). Returns the new
list and the `added` flag. -/
def insertScan : List AggGroup → AggGroup → List AggGroup × Bool
  | [], _ => ([], false)
  | g :: rest, elem =>
    if elem.count < g.count then
      let r := insertScan rest elem
      (g :: r.1, r.2)
    else
      (elem :: g :: rest, true)

/-- `insertOrdered` from the grouper (`grouper.go`): an empty ranked list
becomes the candidate alone; otherwise the scan runs, the list is trimmed of
its last element when it has grown beyond `limit`, and a candidate smaller
than every entry is appended at the end when room is left. -/
def insertOrdered (limit : Nat) (topGroups : List AggGroup) (elem : AggGroup) :
    List AggGroup :=
  if topGroups.isEmpty then [elem]
  else
    let scanned := insertScan topGroups elem
    let trimmed := if limit < scanned.1.length then scanned.1.dropLast else scanned.1
    if !scanned.2 && trimmed.length < limit then trimmed ++ [elem] else trimmed

/-- One tally entry (group-by value with its doc ids) converted to a group;
`Count` is the number of ids. -/
def mkGroup (v : String × List Nat) : AggGroup :=
  { value := v.1, count := (v.2.length : Int), docIDs := v.2 }

/-- `aggregateAndSelect`: fold every tally entry into the bounded ranked list
via `insertOrdered`. The Go map iteration order is unspecified, so the claims
quantify over the order of the entries. -/
def aggregateAndSelect (limit : Nat) (values : List (String × List Nat)) :
    List AggGroup :=
  values.foldl (fun top v => insertOrdered limit top (mkGroup v)) []

/-- Non-increasing order of the ranked list by count. -/
def SortedDesc (l : List AggGroup) : Prop :=
  l.Pairwise (fun a b => b.count ≤ a.count)

/-- C8 counterexample: inserting a candidate whose count equals the count of
the one existing entry places the candidate BEFORE that entry; the claim
predicts the opposite order. -/
theorem insertOrdered_equal_count_goes_before :
    insertOrdered 5 [⟨"A", 3, [1, 2, 3]⟩] ⟨"B", 3, [4, 5, 6]⟩
      = [⟨"B", 3, [4, 5, 6]⟩, ⟨"A", 3, [1, 2, 3]⟩]
    ∧ ([⟨"B", 3, [4, 5, 6]⟩, ⟨"A", 3, [1, 2, 3]⟩] : List AggGroup)
      ≠ [⟨"A", 3, [1, 2, 3]⟩, ⟨"B", 3, [4, 5, 6]⟩] := by
  exact ⟨by decide, by decide⟩

theorem insertScan_inserts_before (hi : List AggGroup) (e0 : AggGroup)
    (tl : List AggGroup) (elem : AggGroup)
    (hhi : ∀ g ∈ hi, elem.count < g.count) (he0 : e0.count ≤ elem.count) :
    insertScan (hi ++ e0 :: tl) elem = (hi ++ elem :: e0 :: tl, true) := by
  induction hi with
  | nil => simp [insertScan, not_lt.mpr he0]
  | cons g rest ih =>
    have hg := hhi g (by simp)
    simp [insertScan, hg, ih (fun x hx => hhi x (by simp [hx]))]

/-- C8 (amended): the insertion scan skips exactly the entries with strictly
greater count and stops at the first entry whose count is less than or equal
to the candidate's; the candidate is placed immediately before that entry —
in particular BEFORE existing equal-count entries — and the grown list is
trimmed of its last element when it exceeds the limit. -/
theorem insertOrdered_places_before_first_le (limit : Nat) (hi : List AggGroup)
    (e0 : AggGroup) (tl : List AggGroup) (elem : AggGroup)
    (hhi : ∀ g ∈ hi, elem.count < g.count) (he0 : e0.count ≤ elem.count) :
    insertOrdered limit (hi ++ e0 :: tl) elem =
      (if limit < (hi ++ elem :: e0 :: tl).length
        then (hi ++ elem :: e0 :: tl).dropLast
        else hi ++ elem :: e0 :: tl) := by
  have hne : (hi ++ e0 :: tl).isEmpty = false := by
    cases hi <;> rfl
  rw [insertOrdered, hne]
  simp only [Bool.false_eq_true, if_false,
    insertScan_inserts_before hi e0 tl elem hhi he0]
  split <;> simp

/-- Witness for `insertOrdered_places_before_first_le`: limit 1, existing
list `[X(count 5), A(count 3)]`, candidate `B(count 3)`: B is inserted before
A and the trim then drops A — B replaces the equal-count A. -/
theorem insertOrdered_places_before_first_le_witness :
    insertOrdered 1 ([⟨"X", 5, []⟩] ++ ⟨"A", 3, []⟩ :: []) ⟨"B", 3, []⟩
      = (if 1 < (([⟨"X", 5, []⟩] ++ ⟨"B", 3, []⟩ :: ⟨"A", 3, []⟩ :: []) : List AggGroup).length
          then (([⟨"X", 5, []⟩] ++ ⟨"B", 3, []⟩ :: ⟨"A", 3, []⟩ :: []) : List AggGroup).dropLast
          else [⟨"X", 5, []⟩] ++ ⟨"B", 3, []⟩ :: ⟨"A", 3, []⟩ :: []) :=
  insertOrdered_places_before_first_le 1 [⟨"X", 5, []⟩] ⟨"A", 3, []⟩ [] ⟨"B", 3, []⟩
    (by decide) (by decide)

theorem insertScan_not_added (l : List AggGroup) (elem : AggGroup)
    (h : (insertScan l elem).2 = false) :
    (insertScan l elem).1 = l ∧ ∀ g ∈ l, elem.count < g.count := by
  induction l with
  | nil => exact ⟨rfl, by simp⟩
  | cons g rest ih =>
    by_cases hg : elem.count < g.count
    · simp only [insertScan, hg, if_true] at h ⊢
      obtain ⟨h1, h2⟩ := ih h
      refine ⟨by rw [h1], ?_⟩
      intro x hx
      rcases List.mem_cons.mp hx with hxg | hxr
      · exact hxg ▸ hg
      · exact h2 x hxr
    · simp [insertScan, hg] at h

theorem insertScan_added (l : List AggGroup) (elem : AggGroup)
    (h : (insertScan l elem).2 = true) :
    ∃ hi e0 tl, l = hi ++ e0 :: tl ∧ (∀ g ∈ hi, elem.count < g.count)
      ∧ e0.count ≤ elem.count := by
  induction l with
  | nil => simp [insertScan] at h
  | cons g rest ih =>
    by_cases hg : elem.count < g.count
    · simp only [insertScan, hg, if_true] at h
      obtain ⟨hi, e0, tl, h1, h2, h3⟩ := ih h
      refine ⟨g :: hi, e0, tl, by simp [h1], ?_, h3⟩
      intro x hx
      rcases List.mem_cons.mp hx with hxg | hxr
      · exact hxg ▸ hg
      · exact h2 x hxr
    · exact ⟨[], g, rest, rfl, by simp, not_lt.mp hg⟩

/-- Inserting the candidate right before the stop position preserves the
non-increasing order. -/
theorem sortedDesc_insert_middle (hi : List AggGroup) (e0 : AggGroup)
    (tl : List AggGroup) (elem : AggGroup)
    (hs : SortedDesc (hi ++ e0 :: tl))
    (hhi : ∀ g ∈ hi, elem.count < g.count) (he0 : e0.count ≤ elem.count) :
    SortedDesc (hi ++ elem :: e0 :: tl) := by
  rw [SortedDesc, List.pairwise_append] at hs ⊢
  obtain ⟨hs1, hs2, hs3⟩ := hs
  rw [List.pairwise_cons] at hs2
  obtain ⟨he0tl, hstl⟩ := hs2
  refine ⟨hs1, ?_, ?_⟩
  · rw [List.pairwise_cons]
    refine ⟨?_, by rw [List.pairwise_cons]; exact ⟨he0tl, hstl⟩⟩
    intro b hb
    rcases List.mem_cons.mp hb with hbe | hbt
    · exact hbe ▸ he0
    · exact le_trans (he0tl b hbt) he0
  · intro a ha b hb
    rcases List.mem_cons.mp hb with hbe | hbt
    · exact hbe ▸ le_of_lt (hhi a ha)
    · exact hs3 a ha b hbt

/-- `insertOrdered` keeps the ranked list sorted in non-increasing count
order. -/
theorem sortedDesc_insertOrdered (limit : Nat) (l : List AggGroup)
    (elem : AggGroup) (hs : SortedDesc l) :
    SortedDesc (insertOrdered limit l elem) := by
  by_cases hemp : l.isEmpty
  · rw [insertOrdered, if_pos hemp]
    exact List.pairwise_singleton _ _
  · rw [insertOrdered, if_neg hemp]
    simp only
    cases hadd : (insertScan l elem).2 with
    | true =>
      obtain ⟨hi, e0, tl, hres, hhi, he0⟩ := insertScan_added l elem hadd
      have hscan : (insertScan l elem).1 = hi ++ elem :: e0 :: tl := by
        rw [hres, insertScan_inserts_before hi e0 tl elem hhi he0]
      have hsorted : SortedDesc (insertScan l elem).1 := by
        rw [hscan]
        exact sortedDesc_insert_middle hi e0 tl elem (hres ▸ hs) hhi he0
      have htrim : SortedDesc (if limit < (insertScan l elem).1.length
          then (insertScan l elem).1.dropLast else (insertScan l elem).1) := by
        split
        · exact List.Pairwise.sublist (List.dropLast_sublist _) hsorted
        · exact hsorted
      simp only [hadd, Bool.not_true, Bool.false_and, Bool.false_eq_true, if_false]
      exact htrim
    | false =>
      obtain ⟨hsame, hall⟩ := insertScan_not_added l elem hadd
      simp only [hadd, hsame, Bool.not_false, Bool.true_and, decide_eq_true_eq]
      by_cases htrim : limit < l.length
      · simp only [if_pos htrim]
        have hts : SortedDesc l.dropLast :=
          List.Pairwise.sublist (List.dropLast_sublist l) hs
        split
        · rw [SortedDesc, List.pairwise_append]
          refine ⟨hts, List.pairwise_singleton _ _, ?_⟩
          intro a ha b hb
          rw [List.mem_singleton] at hb
          exact hb ▸ le_of_lt (hall a ((List.dropLast_sublist l).subset ha))
        · exact hts
      · simp only [if_neg htrim]
        split
        · rw [SortedDesc, List.pairwise_append]
          refine ⟨hs, List.pairwise_singleton _ _, ?_⟩
          intro a ha b hb
          rw [List.mem_singleton] at hb
          exact hb ▸ le_of_lt (hall a ha)
        · exact hs

/-- The exact length evolution of `insertOrdered` when the list respects the
bound. -/
theorem insertOrdered_length (limit : Nat) (h1 : 1 ≤ limit) (l : List AggGroup)
    (elem : AggGroup) (hl : l.length ≤ limit) :
    (insertOrdered limit l elem).length =
      if l.length < limit then l.length + 1 else limit := by
  by_cases hemp : l.isEmpty
  · have h0 : l.length = 0 := by
      cases l with
      | nil => rfl
      | cons a r => simp [List.isEmpty] at hemp
    rw [insertOrdered, if_pos hemp]
    have hpos : 0 < limit := h1
    simp [h0, hpos]
  · rw [insertOrdered, if_neg hemp]
    simp only
    cases hadd : (insertScan l elem).2 with
    | true =>
      obtain ⟨hi, e0, tl, hres, hhi, he0⟩ := insertScan_added l elem hadd
      have hscan : (insertScan l elem).1 = hi ++ elem :: e0 :: tl := by
        rw [hres, insertScan_inserts_before hi e0 tl elem hhi he0]
      have hlen : (insertScan l elem).1.length = l.length + 1 := by
        rw [hscan, hres]
        simp only [List.length_append, List.length_cons]
        omega
      simp only [hadd, Bool.not_true, Bool.false_and, Bool.false_eq_true, if_false]
      by_cases hlt : limit < (insertScan l elem).1.length
      · rw [if_pos hlt, List.length_dropLast, hlen]
        have hge : ¬ l.length < limit := by
          rw [hlen] at hlt
          omega
        rw [if_neg hge]
        omega
      · rw [if_neg hlt, hlen]
        have hroom : l.length < limit := by
          rw [hlen] at hlt
          omega
        rw [if_pos hroom]
    | false =>
      obtain ⟨hsame, hall⟩ := insertScan_not_added l elem hadd
      have hnotrim : ¬ limit < l.length := by omega
      simp only [hadd, hsame, Bool.not_false, Bool.true_and, decide_eq_true_eq,
        if_neg hnotrim]
      by_cases hroom : l.length < limit
      · rw [if_pos hroom, if_pos hroom]
        simp
      · rw [if_neg hroom, if_neg hroom]
        omega

theorem insertOrdered_length_le (limit : Nat) (h1 : 1 ≤ limit)
    (l : List AggGroup) (elem : AggGroup) (hl : l.length ≤ limit) :
    (insertOrdered limit l elem).length ≤ limit := by
  rw [insertOrdered_length limit h1 l elem hl]
  split <;> omega

/-- C10: for every limit ≥ 1, each `insertOrdered` call preserves the
invariant that the ranked list is sorted non-increasingly by count and holds
at most `limit` elements; starting from the empty list, no insertion
sequence violates either part. -/
theorem insertOrdered_preserves_invariant (limit : Nat) (h1 : 1 ≤ limit)
    (tops : List AggGroup) (elem : AggGroup)
    (hs : SortedDesc tops) (hl : tops.length ≤ limit) :
    (SortedDesc (insertOrdered limit tops elem)
      ∧ (insertOrdered limit tops elem).length ≤ limit)
    ∧ ∀ elems : List AggGroup,
        SortedDesc (elems.foldl (insertOrdered limit) [])
        ∧ (elems.foldl (insertOrdered limit) []).length ≤ limit := by
  refine ⟨⟨sortedDesc_insertOrdered limit tops elem hs,
    insertOrdered_length_le limit h1 tops elem hl⟩, ?_⟩
  intro elems
  suffices h : ∀ start : List AggGroup, SortedDesc start → start.length ≤ limit →
      SortedDesc (elems.foldl (insertOrdered limit) start)
      ∧ (elems.foldl (insertOrdered limit) start).length ≤ limit by
    exact h [] List.Pairwise.nil (by simp)
  induction elems with
  | nil => exact fun start hss hsl => ⟨hss, hsl⟩
  | cons e rest ih =>
    intro start hss hsl
    exact ih _ (sortedDesc_insertOrdered limit start e hss)
      (insertOrdered_length_le limit h1 start e hsl)

/-- Witness for `insertOrdered_preserves_invariant` at limit 2 and a sorted
one-element list. -/
theorem insertOrdered_preserves_invariant_witness :
    (SortedDesc (insertOrdered 2 [⟨"A", 5, []⟩] ⟨"B", 2, []⟩)
      ∧ (insertOrdered 2 [⟨"A", 5, []⟩] ⟨"B", 2, []⟩).length ≤ 2)
    ∧ ∀ elems : List AggGroup,
        SortedDesc (elems.foldl (insertOrdered 2) [])
        ∧ (elems.foldl (insertOrdered 2) []).length ≤ 2 :=
  insertOrdered_preserves_invariant 2 (by decide) [⟨"A", 5, []⟩] ⟨"B", 2, []⟩
    (List.pairwise_singleton _ _) (by decide)

/-- Invariant of the top-N selection tying the ranked list `res` to the
multiset `done` of candidates inserted so far: `res` is sorted, holds
exactly `min limit done.length` entries, every discarded candidate counts no
more than every kept entry, and nothing is discarded while room is left. -/
structure TopNInv (limit : Nat) (done res : List AggGroup) : Prop where
  sorted : SortedDesc res
  len : res.length = min limit done.length
  kept : ∀ y ∈ done, y ∉ res → ∀ x ∈ res, y.count ≤ x.count
  full : res.length < limit → ∀ y ∈ done, y ∈ res

theorem topNInv_insertOrdered (limit : Nat) (h1 : 1 ≤ limit)
    (done res : List AggGroup) (elem : AggGroup)
    (inv : TopNInv limit done res) :
    TopNInv limit (done ++ [elem]) (insertOrdered limit res elem) := by
  have hresle : res.length ≤ limit := by
    have := inv.len
    omega
  have hdlen : (done ++ [elem]).length = done.length + 1 := by simp
  by_cases hemp : res.isEmpty
  · have hres0 : res = [] := List.isEmpty_iff.mp hemp
    have hdone0 : done = [] := by
      have hlen := inv.len
      rw [hres0] at hlen
      simp only [List.length_nil] at hlen
      cases done with
      | nil => rfl
      | cons d ds =>
        exfalso
        simp only [List.length_cons] at hlen
        omega
    subst hres0
    subst hdone0
    rw [insertOrdered, if_pos (by rfl)]
    refine ⟨List.pairwise_singleton _ _, ?_, ?_, ?_⟩
    · simp
      omega
    · intro y hy hynot x hx
      exfalso
      rw [List.nil_append, List.mem_singleton] at hy
      subst hy
      exact hynot (List.mem_singleton_self _)
    · intro _ y hy
      rw [List.nil_append] at hy
      exact hy
  · rw [insertOrdered, if_neg hemp]
    simp only
    cases hadd : (insertScan res elem).2 with
    | true =>
      obtain ⟨hi, e0, tl, hresq, hhi, he0⟩ := insertScan_added res elem hadd
      have hscan : (insertScan res elem).1 = hi ++ elem :: e0 :: tl := by
        rw [hresq, insertScan_inserts_before hi e0 tl elem hhi he0]
      simp only [hadd, Bool.not_true, Bool.false_and, Bool.false_eq_true, if_false, hscan]
      have hinslen : (hi ++ elem :: e0 :: tl).length = res.length + 1 := by
        rw [hresq]
        simp only [List.length_append, List.length_cons]
        omega
      have hsins : SortedDesc (hi ++ elem :: e0 :: tl) :=
        sortedDesc_insert_middle hi e0 tl elem (hresq ▸ inv.sorted) hhi he0
      have hmem_ins : ∀ x ∈ hi ++ elem :: e0 :: tl, x ∈ res ∨ x = elem := by
        intro x hx
        rcases List.mem_append.mp hx with hxhi | hxc
        · exact Or.inl (hresq ▸ List.mem_append.mpr (Or.inl hxhi))
        · rcases List.mem_cons.mp hxc with hxe | hxrest
          · exact Or.inr hxe
          · exact Or.inl (hresq ▸ List.mem_append.mpr (Or.inr hxrest))
      have hres_sub_ins : ∀ x ∈ res, x ∈ hi ++ elem :: e0 :: tl := by
        intro x hx
        rw [hresq] at hx
        rcases List.mem_append.mp hx with h | h
        · exact List.mem_append.mpr (Or.inl h)
        · exact List.mem_append.mpr (Or.inr (List.mem_cons_of_mem _ h))
      have he0res : e0 ∈ res := by
        rw [hresq]
        exact List.mem_append.mpr (Or.inr (List.mem_cons_self _ _))
      have helem_ins : elem ∈ hi ++ elem :: e0 :: tl :=
        List.mem_append.mpr (Or.inr (List.mem_cons_self _ _))
      by_cases hlt : limit < (hi ++ elem :: e0 :: tl).length
      · rw [if_pos hlt]
        have hreslim : res.length = limit := by omega
        have hinsne : (hi ++ elem :: e0 :: tl) ≠ [] := by
          cases hi <;> simp
        have hsplit : (hi ++ elem :: e0 :: tl).dropLast
            ++ [(hi ++ elem :: e0 :: tl).getLast hinsne] = hi ++ elem :: e0 :: tl :=
          List.dropLast_append_getLast hinsne
        have hmlast : ∀ x ∈ (hi ++ elem :: e0 :: tl).dropLast,
            ((hi ++ elem :: e0 :: tl).getLast hinsne).count ≤ x.count := by
          intro x hx
          have := hsins
          rw [SortedDesc, ← hsplit, List.pairwise_append] at this
          exact this.2.2 x hx _ (List.mem_singleton_self _)
        have hdl_sub : ∀ x ∈ (hi ++ elem :: e0 :: tl).dropLast,
            x ∈ hi ++ elem :: e0 :: tl :=
          fun x hx => (List.dropLast_sublist _).subset hx
        have helem_dl : elem ∈ (hi ++ elem :: e0 :: tl).dropLast := by
          rw [List.dropLast_append_cons, List.dropLast_cons₂]
          exact List.mem_append.mpr (Or.inr (List.mem_cons_self _ _))
        refine ⟨List.Pairwise.sublist (List.dropLast_sublist _) hsins, ?_, ?_, ?_⟩
        · rw [List.length_dropLast, hinslen, hdlen, hreslim]
          have : limit ≤ done.length := by
            have := inv.len
            omega
          omega
        · intro y hy hynot x hx
          rcases List.mem_append.mp hy with hyd | hye
          · by_cases hyres : y ∈ res
            · have hyins : y ∈ hi ++ elem :: e0 :: tl := hres_sub_ins y hyres
              have hylast : y = (hi ++ elem :: e0 :: tl).getLast hinsne := by
                rw [← hsplit] at hyins
                rcases List.mem_append.mp hyins with h | h
                · exact absurd h hynot
                · exact List.mem_singleton.mp h
              rw [hylast]
              exact hmlast x hx
            · rcases hmem_ins x (hdl_sub x hx) with hxres | hxe
              · exact inv.kept y hyd hyres x hxres
              · rw [hxe]
                exact le_trans (inv.kept y hyd hyres e0 he0res) he0
          · exfalso
            rw [List.mem_singleton] at hye
            subst hye
            exact hynot helem_dl
        · intro hcon
          exfalso
          rw [List.length_dropLast, hinslen, hreslim] at hcon
          omega
      · rw [if_neg hlt]
        have hroom : res.length < limit := by omega
        refine ⟨hsins, ?_, ?_, ?_⟩
        · rw [hinslen, hdlen]
          have := inv.len
          omega
        · intro y hy hynot x hx
          rcases List.mem_append.mp hy with hyd | hye
          · have hyres : y ∉ res := fun hc => hynot (hres_sub_ins y hc)
            exfalso
            exact hyres (inv.full hroom y hyd)
          · exfalso
            rw [List.mem_singleton] at hye
            subst hye
            exact hynot helem_ins
        · intro _ y hy
          rcases List.mem_append.mp hy with hyd | hye
          · exact hres_sub_ins y (inv.full hroom y hyd)
          · rw [List.mem_singleton] at hye
            subst hye
            exact helem_ins
    | false =>
      obtain ⟨hsame, hall⟩ := insertScan_not_added res elem hadd
      have hnotrim : ¬ limit < res.length := by omega
      simp only [hadd, hsame, Bool.not_false, Bool.true_and, decide_eq_true_eq,
        if_neg hnotrim]
      by_cases hroom : res.length < limit
      · rw [if_pos hroom]
        refine ⟨?_, ?_, ?_, ?_⟩
        · rw [SortedDesc, List.pairwise_append]
          refine ⟨inv.sorted, List.pairwise_singleton _ _, ?_⟩
          intro a ha b hb
          rw [List.mem_singleton] at hb
          exact hb ▸ le_of_lt (hall a ha)
        · rw [List.length_append, hdlen]
          have := inv.len
          simp only [List.length_singleton]
          omega
        · intro y hy hynot x hx
          exfalso
          rcases List.mem_append.mp hy with hyd | hye
          · exact hynot (List.mem_append.mpr (Or.inl (inv.full hroom y hyd)))
          · rw [List.mem_singleton] at hye
            subst hye
            exact hynot (List.mem_append.mpr (Or.inr (List.mem_singleton_self _)))
        · intro _ y hy
          rcases List.mem_append.mp hy with hyd | hye
          · exact List.mem_append.mpr (Or.inl (inv.full hroom y hyd))
          · rw [List.mem_singleton] at hye
            subst hye
            exact List.mem_append.mpr (Or.inr (List.mem_singleton_self _))
      · rw [if_neg hroom]
        have hreslim : res.length = limit := by omega
        refine ⟨inv.sorted, ?_, ?_, ?_⟩
        · rw [hdlen, hreslim]
          have := inv.len
          omega
        · intro y hy hynot x hx
          rcases List.mem_append.mp hy with hyd | hye
          · exact inv.kept y hyd hynot x hx
          · rw [List.mem_singleton] at hye
            subst hye
            exact le_of_lt (hall x hx)
        · intro hcon
          exfalso
          omega

/-- The three tally entries of the concrete grouping scenario {A:5, B:3, C:1}. -/
def tallyA : String × List Nat := ("A", [11, 12, 13, 14, 15])

def tallyB : String × List Nat := ("B", [21, 22, 23])

def tallyC : String × List Nat := ("C", [31])

/-- All six iteration orders of the three tally entries (Go map iteration
order is unspecified). -/
def abcOrders : List (List (String × List Nat)) :=
  [[tallyA, tallyB, tallyC], [tallyA, tallyC, tallyB], [tallyB, tallyA, tallyC],
   [tallyB, tallyC, tallyA], [tallyC, tallyA, tallyB], [tallyC, tallyB, tallyA]]

/-- Folding any candidate sequence from the empty ranked list establishes the
top-N invariant. -/
theorem topNInv_foldl (limit : Nat) (h1 : 1 ≤ limit) (elems : List AggGroup) :
    TopNInv limit elems (elems.foldl (insertOrdered limit) []) := by
  suffices h : ∀ done start, TopNInv limit done start →
      TopNInv limit (done ++ elems) (elems.foldl (insertOrdered limit) start) by
    have h0 : TopNInv limit [] [] :=
      ⟨List.Pairwise.nil, by simp, by simp, fun _ y hy => absurd hy (List.not_mem_nil y)⟩
    simpa using h [] [] h0
  induction elems with
  | nil =>
    intro done start hinv
    simpa using hinv
  | cons e rest ih =>
    intro done start hinv
    have hstep := ih (done ++ [e]) _ (topNInv_insertOrdered limit h1 done start e hinv)
    simpa using hstep

/-- C7: for every tally and every limit ≥ 1, the grouper's selection returns
at most `limit` groups in non-increasing count order, and every returned
group counts at least as much as every candidate left out; concretely, for
counts {A:5, B:3, C:1} and limit 2, every insertion order yields exactly
[A (count 5), B (count 3)], dropping C. -/
theorem aggregateAndSelect_topN (limit : Nat) (h1 : 1 ≤ limit)
    (values : List (String × List Nat)) :
    (SortedDesc (aggregateAndSelect limit values)
      ∧ (aggregateAndSelect limit values).length ≤ limit
      ∧ (∀ x ∈ aggregateAndSelect limit values, ∀ v ∈ values,
          mkGroup v ∉ aggregateAndSelect limit values →
            (mkGroup v).count ≤ x.count))
    ∧ (∀ vs ∈ abcOrders,
        (aggregateAndSelect 2 vs).map (fun g => (g.value, g.count)) =
          [("A", (5 : Int)), ("B", (3 : Int))]) := by
  constructor
  · have hfold : aggregateAndSelect limit values
        = (values.map mkGroup).foldl (insertOrdered limit) [] := by
      rw [aggregateAndSelect, List.foldl_map]
    have hinv := topNInv_foldl limit h1 (values.map mkGroup)
    rw [← hfold] at hinv
    refine ⟨hinv.sorted, ?_, ?_⟩
    · have := hinv.len
      omega
    · intro x hx v hv hnot
      exact hinv.kept (mkGroup v) (List.mem_map.mpr ⟨v, hv, rfl⟩) hnot x hx
  · decide

/-- Witness for `aggregateAndSelect_topN` at limit 2 and the concrete tally
{A:5, B:3, C:1}. -/
theorem aggregateAndSelect_topN_witness :
    (SortedDesc (aggregateAndSelect 2 [("A", [11, 12, 13, 14, 15]), ("B", [21, 22, 23]),
          ("C", [31])])
      ∧ (aggregateAndSelect 2 [("A", [11, 12, 13, 14, 15]), ("B", [21, 22, 23]),
          ("C", [31])]).length ≤ 2
      ∧ (∀ x ∈ aggregateAndSelect 2 [("A", [11, 12, 13, 14, 15]), ("B", [21, 22, 23]),
            ("C", [31])],
          ∀ v ∈ ([("A", [11, 12, 13, 14, 15]), ("B", [21, 22, 23]),
            ("C", [31])] : List (String × List Nat)),
          mkGroup v ∉ aggregateAndSelect 2 [("A", [11, 12, 13, 14, 15]), ("B", [21, 22, 23]),
            ("C", [31])] →
            (mkGroup v).count ≤ x.count))
    ∧ (∀ vs ∈ abcOrders,
        (aggregateAndSelect 2 vs).map (fun g => (g.value, g.count)) =
          [("A", (5 : Int)), ("B", (3 : Int))]) :=
  aggregateAndSelect_topN 2 (by decide)
    [("A", [11, 12, 13, 14, 15]), ("B", [21, 22, 23]), ("C", [31])]

/-! ### Leaf posting-list fetching (`fetchDocIDs`) -/

/-- Filter operators (`entities/filters` is not under src/; the operator set
is the one given by the spec's filter-tree data model). -/
inductive Operator where
  | opEqual
  | opNotEqual
  | opGreaterThan
  | opGreaterThanEqual
  | opLessThan
  | opLessThanEqual
  | opLike
  | opWithinGeoRange
  | opIsNull
  | opAnd
  | opOr
  deriving DecidableEq, Repr

/-- Modelled from the spec: `Operator.OnValue` (entities/filters, not under
src/) — every leaf operator operates on a value; the boolean combinators And
and Or do not. -/
def Operator.OnValue : Operator → Bool
  | .opAnd => false
  | .opOr => false
  | _ => true

mutual
/-- `propValuePair` from `prop_value_pairs.go`: property name, operator, the
encoded filter value, the frequency flag, the fetched posting list, and the
children of a non-leaf clause. The children list is a dedicated inductive so
that the fetch functions can recurse structurally. The geo-range value of a
WithinGeoRange clause is carried by the searcher's posting-list lookup and
not modelled separately. -/
inductive PropValuePair where
  | mk (prop : String) (operator : Operator) (value : List Nat)
      (hasFrequency : Bool) (docIDs : DocPointers) (children : PVPList)

/-- The `children []*propValuePair` field as its own list type. -/
inductive PVPList where
  | nil
  | cons (head : PropValuePair) (tail : PVPList)
end

/-- Modelled from the spec: `helpers.BucketFromPropNameLSM` (helpers package
not under src/) derives the bucket name of a property's inverted bucket. -/
def bucketFromPropNameLSM (propName : String) : String :=
  "property_" ++ propName

/-- Modelled from the spec: `helpers.PropertyNameID` (not under src/), the
reserved internal name of the special user-facing "id" property. -/
def propertyNameID : String := "_id"

/-- Modelled from the spec: the searcher's storage access (`searcher.go` and
the lsmkv store are not under src/): `store` returns the bucket handle of a
bucket name when one exists (`s.store.Bucket`), and `docPointers` is the
posting-list lookup `s.docPointers(id, b, limit, pv, tolerateDuplicates)`,
which serves WithinGeoRange from the secondary geo index even when the
bucket handle is absent. -/
structure Searcher where
  store : String → Option Nat
  docPointers : String → Option Nat → Nat → PropValuePair → Bool →
    Except String DocPointers

mutual
/-- `fetchDocIDs` from `prop_value_pairs.go`, lines 39-77: a value operator
resolves its bucket (the user-facing "id" property is rewritten to the
reserved internal name with frequency disabled) and fails when the bucket is
missing unless the operator is WithinGeoRange; a non-value operator (And/Or)
fetches every child with the limit explicitly set to 0 (unlimited), wrapping
a failing child's error with the child position. -/
def fetchDocIDs (s : Searcher) (limit : Nat) (tolerateDuplicates : Bool) :
    PropValuePair → Except String PropValuePair
  | .mk prop op value hasFreq doc children =>
    if op.OnValue then
      let id := if prop = "id" then bucketFromPropNameLSM propertyNameID
        else bucketFromPropNameLSM prop
      let prop2 := if prop = "id" then propertyNameID else prop
      let hasFreq2 := if prop = "id" then false else hasFreq
      let b := s.store id
      if b = none ∧ op ≠ .opWithinGeoRange then
        .error ("bucket for prop " ++ prop2 ++ " not found - is it indexed?")
      else
        match s.docPointers id b limit (.mk prop2 op value hasFreq2 doc children)
            tolerateDuplicates with
        | .error e => .error e
        | .ok pointers => .ok (.mk prop2 op value hasFreq2 pointers children)
    else
      match fetchChildren s tolerateDuplicates 0 children with
      | .error e => .error e
      | .ok cs => .ok (.mk prop op value hasFreq doc cs)

/-- The child loop of a non-leaf `fetchDocIDs`, carrying the child index for
the error context (`errors.Wrapf(err, "nested child %d", i)`). -/
def fetchChildren (s : Searcher) (tolerateDuplicates : Bool) :
    Nat → PVPList → Except String PVPList
  | _, .nil => .ok .nil
  | i, .cons c cs =>
    match fetchDocIDs s 0 tolerateDuplicates c with
    | .error e => .error ("nested child " ++ toString i ++ ": " ++ e)
    | .ok c2 =>
      match fetchChildren s tolerateDuplicates (i + 1) cs with
      | .error e => .error e
      | .ok cs2 => .ok (.cons c2 cs2)
end

/-- C5: a leaf clause whose operator operates on a value fails with the
"bucket for prop <name> not found - is it indexed?" error whenever the store
has no bucket for the property — except for WithinGeoRange, where the missing
bucket is tolerated and the fetch proceeds through the posting-list lookup. -/
theorem fetchDocIDs_missing_bucket (s : Searcher) (limit : Nat) (tol : Bool)
    (prop : String) (op : Operator) (value : List Nat) (hasFreq : Bool)
    (doc : DocPointers) (children : PVPList)
    (hOn : op.OnValue = true)
    (hmiss : s.store (if prop = "id" then bucketFromPropNameLSM propertyNameID
      else bucketFromPropNameLSM prop) = none) :
    (op ≠ .opWithinGeoRange →
      fetchDocIDs s limit tol (.mk prop op value hasFreq doc children)
        = .error ("bucket for prop " ++ (if prop = "id" then propertyNameID else prop)
            ++ " not found - is it indexed?"))
    ∧ (op = .opWithinGeoRange → ∀ pointers : DocPointers,
        s.docPointers
            (if prop = "id" then bucketFromPropNameLSM propertyNameID
              else bucketFromPropNameLSM prop) none limit
            (.mk (if prop = "id" then propertyNameID else prop) op value
              (if prop = "id" then false else hasFreq) doc children) tol
          = .ok pointers →
        fetchDocIDs s limit tol (.mk prop op value hasFreq doc children)
          = .ok (.mk (if prop = "id" then propertyNameID else prop) op value
              (if prop = "id" then false else hasFreq) pointers children)) := by
  constructor
  · intro hne
    simp only [fetchDocIDs, hOn, if_true]
    rw [hmiss, if_pos ⟨rfl, hne⟩]
  · intro hgeo pointers hdp
    subst hgeo
    simp only [fetchDocIDs, hOn, if_true]
    rw [hmiss, if_neg (by simp), hdp]

/-- A searcher with an empty store, for witnesses. -/
def emptySearcher : Searcher :=
  { store := fun _ => none,
    docPointers := fun _ _ _ _ _ => .ok ⟨[], []⟩ }

/-- Witness for `fetchDocIDs_missing_bucket`: an Equal leaf on prop "name"
over a store with no buckets. -/
theorem fetchDocIDs_missing_bucket_witness :
    (Operator.opEqual ≠ Operator.opWithinGeoRange →
      fetchDocIDs emptySearcher 3 false
          (.mk "name" .opEqual [] true ⟨[], []⟩ .nil)
        = .error ("bucket for prop "
            ++ (if "name" = "id" then propertyNameID else "name")
            ++ " not found - is it indexed?"))
    ∧ (Operator.opEqual = Operator.opWithinGeoRange → ∀ pointers : DocPointers,
        emptySearcher.docPointers
            (if "name" = "id" then bucketFromPropNameLSM propertyNameID
              else bucketFromPropNameLSM "name") none 3
            (.mk (if "name" = "id" then propertyNameID else "name") .opEqual []
              (if "name" = "id" then false else true) ⟨[], []⟩ .nil) false
          = .ok pointers →
        fetchDocIDs emptySearcher 3 false
            (.mk "name" .opEqual [] true ⟨[], []⟩ .nil)
          = .ok (.mk (if "name" = "id" then propertyNameID else "name") .opEqual []
              (if "name" = "id" then false else true) pointers .nil)) :=
  fetchDocIDs_missing_bucket emptySearcher 3 false "name" .opEqual [] true
    ⟨[], []⟩ .nil rfl rfl

mutual
/-- At limit 0, the fetch result depends only on the store and the limit-0
behaviour of the posting-list lookup. -/
theorem fetchDocIDs_limit0_congr (s₁ s₂ : Searcher) (tol : Bool)
    (hstore : s₁.store = s₂.store)
    (hdp : ∀ id b pv, s₁.docPointers id b 0 pv tol = s₂.docPointers id b 0 pv tol)
    (pv : PropValuePair) :
    fetchDocIDs s₁ 0 tol pv = fetchDocIDs s₂ 0 tol pv := by
  match pv with
  | .mk prop op value hasFreq doc children =>
    by_cases hOn : op.OnValue
    · simp only [fetchDocIDs, hOn, if_true, hstore, hdp]
    · simp only [fetchDocIDs, hOn, Bool.false_eq_true, if_false]
      rw [fetchChildren_limit0_congr s₁ s₂ tol hstore hdp 0 children]

/-- Companion of `fetchDocIDs_limit0_congr` for child lists. -/
theorem fetchChildren_limit0_congr (s₁ s₂ : Searcher) (tol : Bool)
    (hstore : s₁.store = s₂.store)
    (hdp : ∀ id b pv, s₁.docPointers id b 0 pv tol = s₂.docPointers id b 0 pv tol)
    (i : Nat) (cs : PVPList) :
    fetchChildren s₁ tol i cs = fetchChildren s₂ tol i cs := by
  match cs with
  | .nil => rfl
  | .cons c rest =>
    simp only [fetchChildren]
    rw [fetchDocIDs_limit0_congr s₁ s₂ tol hstore hdp c,
      fetchChildren_limit0_congr s₁ s₂ tol hstore hdp (i + 1) rest]
end

/-- C9: fetching a non-leaf (And/Or) clause ignores the caller's limit:
every child is fetched with the limit set to 0 (unlimited), so the result is
the same for any two parent limits and depends only on the searcher's
limit-0 posting-list lookups — a nested child is never fetched with the
parent's finite limit. -/
theorem fetchDocIDs_nested_unlimited (s₁ s₂ : Searcher) (tol : Bool)
    (hstore : s₁.store = s₂.store)
    (hdp : ∀ id b pv, s₁.docPointers id b 0 pv tol = s₂.docPointers id b 0 pv tol)
    (prop : String) (op : Operator) (value : List Nat) (hasFreq : Bool)
    (doc : DocPointers) (children : PVPList) (hNotValue : op.OnValue = false)
    (limit₁ limit₂ : Nat) :
    fetchDocIDs s₁ limit₁ tol (.mk prop op value hasFreq doc children)
      = fetchDocIDs s₂ limit₂ tol (.mk prop op value hasFreq doc children) := by
  simp only [fetchDocIDs, hNotValue, Bool.false_eq_true, if_false]
  rw [fetchChildren_limit0_congr s₁ s₂ tol hstore hdp 0 children]

/-- A searcher whose posting-list lookup distinguishes limit 0 from finite
limits by returning extra entries. -/
def limitAwareSearcher : Searcher :=
  { store := fun _ => some 0,
    docPointers := fun _ _ limit _ _ =>
      if limit = 0 then .ok ⟨[], []⟩ else .ok ⟨[⟨9⟩], []⟩ }

/-- A searcher agreeing with `limitAwareSearcher` at limit 0 but failing at
every finite limit. -/
def limitRejectingSearcher : Searcher :=
  { store := fun _ => some 0,
    docPointers := fun _ _ limit _ _ =>
      if limit = 0 then .ok ⟨[], []⟩ else .error "finite limit used" }

/-- Witness for `fetchDocIDs_nested_unlimited`: an And clause fetched with
parent limits 3 and 7 over two searchers that only agree at limit 0. -/
theorem fetchDocIDs_nested_unlimited_witness :
    fetchDocIDs limitAwareSearcher 3 false
        (.mk "" .opAnd [] false ⟨[], []⟩
          (.cons (.mk "name" .opEqual [] true ⟨[], []⟩ .nil) .nil))
      = fetchDocIDs limitRejectingSearcher 7 false
        (.mk "" .opAnd [] false ⟨[], []⟩
          (.cons (.mk "name" .opEqual [] true ⟨[], []⟩ .nil) .nil)) :=
  fetchDocIDs_nested_unlimited limitAwareSearcher limitRejectingSearcher false
    rfl (fun _ _ _ => rfl) "" .opAnd [] false ⟨[], []⟩
    (.cons (.mk "name" .opEqual [] true ⟨[], []⟩ .nil) .nil) rfl 3 7

/-! ### Write-ahead-log recovery (LSM storage layer) -/

/-- Modelled from the spec: a WAL record of the Replace strategy — a Put of
a key and value or a Delete of a key (the lsmkv bucket and commit logger are
not under src/; only their recovery tests are). Keys and values are byte
lists. -/
inductive WalOp where
  | put (key value : List Nat)
  | del (key : List Nat)
  deriving DecidableEq, Repr

/-- Whether a record's key and value lengths fit the 4-byte length fields. -/
def WalOp.lenOK : WalOp → Bool
  | .put k v => decide (k.length < 4294967296) && decide (v.length < 4294967296)
  | .del k => decide (k.length < 4294967296)

/-- Little-endian 4-byte encoding of a length. -/
def u32Bytes (n : Nat) : List Nat :=
  [n % 256, n / 256 % 256, n / 65536 % 256, n / 16777216 % 256]

/-- Decoding of a 4-byte little-endian length. -/
def readU32 : List Nat → Nat
  | a :: b :: c :: d :: _ => a + 256 * b + 65536 * c + 16777216 * d
  | _ => 0

/-- Modelled from the spec: the serialized form of one WAL record — an
operation byte (0 Put, 1 Delete), the 4-byte lengths, then the raw key and
value bytes. -/
def encodeRecord : WalOp → List Nat
  | .put k v => 0 :: (u32Bytes k.length ++ (u32Bytes v.length ++ (k ++ v)))
  | .del k => 1 :: (u32Bytes k.length ++ k)

/-- A whole WAL: the records in append order. -/
def serializeWAL (ops : List WalOp) : List Nat :=
  (ops.map encodeRecord).flatten

/-- Modelled from the spec: WAL replay parses records in order; when the
remaining bytes do not hold a complete record (a truncated final record from
a crash mid-write), replay stops without error and discards them. -/
def parseWAL : List Nat → List WalOp
  | [] => []
  | b :: rest =>
    if b = 0 then
      if 8 ≤ rest.length then
        let klen := readU32 (rest.take 4)
        let vlen := readU32 ((rest.drop 4).take 4)
        let payload := rest.drop 8
        if klen + vlen ≤ payload.length then
          .put (payload.take klen) ((payload.drop klen).take vlen)
            :: parseWAL (payload.drop (klen + vlen))
        else []
      else []
    else if b = 1 then
      if 4 ≤ rest.length then
        let klen := readU32 (rest.take 4)
        let payload := rest.drop 4
        if klen ≤ payload.length then
          .del (payload.take klen) :: parseWAL (payload.drop klen)
        else []
      else []
    else []
termination_by bs => bs.length
decreasing_by
  · simp only [List.length_drop, List.length_cons]
    omega
  · simp only [List.length_drop, List.length_cons]
    omega

/-- Replace-strategy Put on the key→value table: last write wins. -/
def setKey : List (List Nat × List Nat) → List Nat → List Nat →
    List (List Nat × List Nat)
  | [], k, v => [(k, v)]
  | (k0, v0) :: rest, k, v =>
    if k0 = k then (k0, v) :: rest else (k0, v0) :: setKey rest k v

/-- Apply one WAL record to the table (Delete removes the key, so a later
Get returns absent). -/
def applyOp (table : List (List Nat × List Nat)) : WalOp →
    List (List Nat × List Nat)
  | .put k v => setKey table k v
  | .del k => table.filter (fun e => ¬ e.1 = k)

/-- Replay a record sequence into a fresh memory table. -/
def applyOps (ops : List WalOp) : List (List Nat × List Nat) :=
  ops.foldl applyOp []

/-- Recovery of a freshly opened bucket: parse the WAL bytes, replay the
surviving records. -/
def recoverWAL (bs : List Nat) : List (List Nat × List Nat) :=
  applyOps (parseWAL bs)

theorem readU32_u32Bytes (n : Nat) (h : n < 4294967296) :
    readU32 (u32Bytes n) = n := by
  simp only [u32Bytes, readU32]
  omega

theorem take_append_plus {α : Type} (l₁ l₂ : List α) (t : Nat) :
    (l₁ ++ l₂).take (l₁.length + t) = l₁ ++ l₂.take t := by
  induction l₁ with
  | nil => simp
  | cons a l ih =>
    simp only [List.cons_append, List.length_cons]
    rw [Nat.add_right_comm, List.take_succ_cons, ih]

theorem parseWAL_encode_cons (op : WalOp) (rest : List Nat)
    (hwf : op.lenOK = true) :
    parseWAL (encodeRecord op ++ rest) = op :: parseWAL rest := by
  cases op with
  | put k v =>
    simp only [WalOp.lenOK, Bool.and_eq_true, decide_eq_true_eq] at hwf
    obtain ⟨hk, hv⟩ := hwf
    have h4k : (u32Bytes k.length).length = 4 := rfl
    have h4v : (u32Bytes v.length).length = 4 := rfl
    have hshape : encodeRecord (.put k v) ++ rest
        = 0 :: (u32Bytes k.length ++ (u32Bytes v.length ++ (k ++ (v ++ rest)))) := by
      simp [encodeRecord, List.append_assoc]
    rw [hshape]
    set Y := u32Bytes k.length ++ (u32Bytes v.length ++ (k ++ (v ++ rest))) with hY
    have htake4 : Y.take 4 = u32Bytes k.length := by
      rw [hY, ← h4k, List.take_left]
    have hdrop4 : Y.drop 4 = u32Bytes v.length ++ (k ++ (v ++ rest)) := by
      rw [hY, ← h4k, List.drop_left]
    have htake44 : (Y.drop 4).take 4 = u32Bytes v.length := by
      rw [hdrop4, ← h4v, List.take_left]
    have hdrop8 : Y.drop 8 = k ++ (v ++ rest) := by
      have h48 : Y.drop 8 = (Y.drop 4).drop 4 := by
        rw [List.drop_drop]
      rw [h48, hdrop4, ← h4v, List.drop_left]
    have hYlen : 8 ≤ Y.length := by
      rw [hY]
      simp only [List.length_append, h4k, h4v]
      omega
    simp only [parseWAL]
    rw [htake4, htake44, hdrop8, readU32_u32Bytes k.length hk,
      readU32_u32Bytes v.length hv]
    rw [if_pos trivial, if_pos hYlen,
      if_pos (by simp only [List.length_append]; omega)]
    have htk : (k ++ (v ++ rest)).take k.length = k := List.take_left k _
    have hdk : (k ++ (v ++ rest)).drop k.length = v ++ rest := List.drop_left k _
    have htv : ((k ++ (v ++ rest)).drop k.length).take v.length = v := by
      rw [hdk, List.take_left]
    have hdkv : (k ++ (v ++ rest)).drop (k.length + v.length) = rest := by
      rw [show k.length + v.length = (k ++ v).length by simp, ← List.append_assoc,
        List.drop_left]
    rw [htk, htv, hdkv]
  | del k =>
    simp only [WalOp.lenOK, decide_eq_true_eq] at hwf
    have h4k : (u32Bytes k.length).length = 4 := rfl
    have hshape : encodeRecord (.del k) ++ rest
        = 1 :: (u32Bytes k.length ++ (k ++ rest)) := by
      simp [encodeRecord, List.append_assoc]
    rw [hshape]
    set Y := u32Bytes k.length ++ (k ++ rest) with hY
    have htake4 : Y.take 4 = u32Bytes k.length := by
      rw [hY, ← h4k, List.take_left]
    have hdrop4 : Y.drop 4 = k ++ rest := by
      rw [hY, ← h4k, List.drop_left]
    have hYlen : 4 ≤ Y.length := by
      rw [hY]
      simp only [List.length_append, h4k]
      omega
    have hkle : k.length ≤ (k ++ rest).length := by
      simp only [List.length_append]
      omega
    simp only [parseWAL]
    simp [htake4, hdrop4, readU32_u32Bytes k.length hwf, hYlen, hkle,
      List.take_left, List.drop_left]

theorem parseWAL_serialize_append (ops : List WalOp) (tail : List Nat)
    (h : ∀ op ∈ ops, op.lenOK = true) :
    parseWAL (serializeWAL ops ++ tail) = ops ++ parseWAL tail := by
  induction ops with
  | nil => simp [serializeWAL]
  | cons op rest ih =>
    have hshape : serializeWAL (op :: rest) ++ tail
        = encodeRecord op ++ (serializeWAL rest ++ tail) := by
      simp [serializeWAL, List.append_assoc]
    rw [hshape, parseWAL_encode_cons op _ (h op (by simp)),
      ih (fun o ho => h o (by simp [ho]))]
    rfl

/-- A truncated record never parses: every strict byte prefix of a record's
encoding is discarded as an incomplete final record. -/
theorem parseWAL_partial (op : WalOp) (m : Nat) (hwf : op.lenOK = true)
    (hm : m < (encodeRecord op).length) :
    parseWAL ((encodeRecord op).take m) = [] := by
  cases op with
  | put k v =>
    simp only [WalOp.lenOK, Bool.and_eq_true, decide_eq_true_eq] at hwf
    obtain ⟨hk, hv⟩ := hwf
    have h4k : (u32Bytes k.length).length = 4 := rfl
    have h4v : (u32Bytes v.length).length = 4 := rfl
    set Y := u32Bytes k.length ++ (u32Bytes v.length ++ (k ++ v)) with hY
    have hYlen : Y.length = 8 + (k.length + v.length) := by
      rw [hY]
      simp only [List.length_append, h4k, h4v]
      omega
    have hElen : (encodeRecord (.put k v)).length = Y.length + 1 := by
      simp [encodeRecord, hY]
    cases m with
    | zero =>
      rw [List.take_zero]
      simp [parseWAL]
    | succ j =>
      have hshape : (encodeRecord (.put k v)).take (j + 1) = 0 :: Y.take j := by
        simp [encodeRecord, hY, List.take_succ_cons]
      rw [hshape]
      have hj : j < Y.length := by omega
      have hjtlen : (Y.take j).length = j := by
        rw [List.length_take]
        omega
      by_cases hj8 : 8 ≤ j
      · have htake4 : (Y.take j).take 4 = u32Bytes k.length := by
          rw [List.take_take]
          have : min 4 j = 4 := by omega
          rw [this, hY, ← h4k, List.take_left]
        have hdrop4 : (Y.take j).drop 4 = (Y.drop 4).take (j - 4) := by
          rw [List.drop_take]
        have htake44 : ((Y.take j).drop 4).take 4 = u32Bytes v.length := by
          rw [hdrop4, List.take_take]
          have : min 4 (j - 4) = 4 := by omega
          rw [this]
          have hY4 : Y.drop 4 = u32Bytes v.length ++ (k ++ v) := by
            rw [hY, ← h4k, List.drop_left]
          rw [hY4, ← h4v, List.take_left]
        have hdrop8 : (Y.take j).drop 8 = (Y.drop 8).take (j - 8) := by
          rw [List.drop_take]
        have hY8 : Y.drop 8 = k ++ v := by
          have h48 : Y.drop 8 = (Y.drop 4).drop 4 := by
            rw [List.drop_drop]
          have hY4 : Y.drop 4 = u32Bytes v.length ++ (k ++ v) := by
            rw [hY, ← h4k, List.drop_left]
          rw [h48, hY4, ← h4v, List.drop_left]
        have hplen : ((Y.take j).drop 8).length = j - 8 := by
          rw [hdrop8, hY8, List.length_take, List.length_append]
          omega
        have h8t : 8 ≤ (Y.take j).length := by omega
        have hof : ¬ (k.length + v.length ≤ ((Y.take j).drop 8).length) := by
          rw [hplen]
          omega
        simp only [parseWAL]
        simp [htake4, htake44, readU32_u32Bytes k.length hk,
          readU32_u32Bytes v.length hv, h8t, hof]
        intro _ _
        omega
      · have h8t : ¬ 8 ≤ (Y.take j).length := by omega
        simp only [parseWAL]
        simp [h8t]
        intro hc _
        exact absurd hc hj8
  | del k =>
    simp only [WalOp.lenOK, decide_eq_true_eq] at hwf
    have h4k : (u32Bytes k.length).length = 4 := rfl
    set Y := u32Bytes k.length ++ k with hY
    have hYlen : Y.length = 4 + k.length := by
      rw [hY]
      simp only [List.length_append, h4k]
    have hElen : (encodeRecord (.del k)).length = Y.length + 1 := by
      simp [encodeRecord, hY]
    cases m with
    | zero =>
      rw [List.take_zero]
      simp [parseWAL]
    | succ j =>
      have hshape : (encodeRecord (.del k)).take (j + 1) = 1 :: Y.take j := by
        simp [encodeRecord, hY, List.take_succ_cons]
      rw [hshape]
      have hj : j < Y.length := by omega
      have hjtlen : (Y.take j).length = j := by
        rw [List.length_take]
        omega
      by_cases hj4 : 4 ≤ j
      · have htake4 : (Y.take j).take 4 = u32Bytes k.length := by
          rw [List.take_take]
          have : min 4 j = 4 := by omega
          rw [this, hY, ← h4k, List.take_left]
        have hdrop4 : (Y.take j).drop 4 = (Y.drop 4).take (j - 4) := by
          rw [List.drop_take]
        have hY4 : Y.drop 4 = k := by
          rw [hY, ← h4k, List.drop_left]
        have hplen : ((Y.take j).drop 4).length = j - 4 := by
          rw [hdrop4, hY4, List.length_take]
          omega
        have h4t : 4 ≤ (Y.take j).length := by omega
        have hof : ¬ (k.length ≤ ((Y.take j).drop 4).length) := by
          rw [hplen]
          omega
        simp only [parseWAL]
        simp [htake4, readU32_u32Bytes k.length hwf, h4t, hof]
        intro _ _
        omega
      · have h4t : ¬ 4 ≤ (Y.take j).length := by omega
        simp only [parseWAL]
        simp [h4t]
        intro hc _
        exact absurd hc hj4

theorem parseWAL_serialize (ops : List WalOp)
    (h : ∀ op ∈ ops, op.lenOK = true) :
    parseWAL (serializeWAL ops) = ops := by
  have hx := parseWAL_serialize_append ops [] h
  rw [List.append_nil] at hx
  simpa [parseWAL] using hx

/-- C4: replaying the serialized WAL of a Put/Delete sequence reconstructs
the identical key-to-value state; removing the last n bytes (a truncation of
the final record) still recovers — parsing is total, hence no error — exactly
the state of all records prior to the truncated one. -/
theorem wal_recovery_roundtrip_and_truncation (ops : List WalOp)
    (lastOp : WalOp) (n : Nat)
    (hwf : ∀ op ∈ ops ++ [lastOp], op.lenOK = true)
    (hn1 : 1 ≤ n) (hn2 : n ≤ (encodeRecord lastOp).length) :
    (parseWAL (serializeWAL (ops ++ [lastOp])) = ops ++ [lastOp]
      ∧ recoverWAL (serializeWAL (ops ++ [lastOp])) = applyOps (ops ++ [lastOp]))
    ∧ parseWAL ((serializeWAL (ops ++ [lastOp])).take
          ((serializeWAL (ops ++ [lastOp])).length - n)) = ops
    ∧ recoverWAL ((serializeWAL (ops ++ [lastOp])).take
          ((serializeWAL (ops ++ [lastOp])).length - n)) = applyOps ops := by
  have hrt : parseWAL (serializeWAL (ops ++ [lastOp])) = ops ++ [lastOp] :=
    parseWAL_serialize _ hwf
  have hser : serializeWAL (ops ++ [lastOp])
      = serializeWAL ops ++ encodeRecord lastOp := by
    simp [serializeWAL]
  have hwfops : ∀ op ∈ ops, op.lenOK = true := fun o ho => hwf o (by simp [ho])
  have hwflast : lastOp.lenOK = true := hwf lastOp (by simp)
  have hE1 : 1 ≤ (encodeRecord lastOp).length := by
    cases lastOp <;> simp [encodeRecord]
  have htail : (serializeWAL (ops ++ [lastOp])).take
        ((serializeWAL (ops ++ [lastOp])).length - n)
      = serializeWAL ops
        ++ (encodeRecord lastOp).take ((encodeRecord lastOp).length - n) := by
    rw [hser]
    have hlen : (serializeWAL ops ++ encodeRecord lastOp).length - n
        = (serializeWAL ops).length + ((encodeRecord lastOp).length - n) := by
      simp only [List.length_append]
      omega
    rw [hlen, take_append_plus]
  have hpartial :
      parseWAL ((encodeRecord lastOp).take ((encodeRecord lastOp).length - n)) = [] :=
    parseWAL_partial lastOp _ hwflast (by omega)
  have htrunc : parseWAL ((serializeWAL (ops ++ [lastOp])).take
        ((serializeWAL (ops ++ [lastOp])).length - n)) = ops := by
    rw [htail, parseWAL_serialize_append ops _ hwfops, hpartial, List.append_nil]
  exact ⟨⟨hrt, by rw [recoverWAL, hrt]⟩, htrunc, by rw [recoverWAL, htrunc]⟩

/-- Witness for `wal_recovery_roundtrip_and_truncation`: three records — two
puts and a delete — with the last record's final 2 bytes cut off. -/
theorem wal_recovery_roundtrip_and_truncation_witness :
    (parseWAL (serializeWAL ([.put [1] [2], .del [1]] ++ [.put [3] [4, 5]]))
        = [.put [1] [2], .del [1]] ++ [.put [3] [4, 5]]
      ∧ recoverWAL (serializeWAL ([.put [1] [2], .del [1]] ++ [.put [3] [4, 5]]))
        = applyOps ([.put [1] [2], .del [1]] ++ [.put [3] [4, 5]]))
    ∧ parseWAL ((serializeWAL ([.put [1] [2], .del [1]] ++ [.put [3] [4, 5]])).take
          ((serializeWAL ([.put [1] [2], .del [1]] ++ [.put [3] [4, 5]])).length - 2))
        = [.put [1] [2], .del [1]]
    ∧ recoverWAL ((serializeWAL ([.put [1] [2], .del [1]] ++ [.put [3] [4, 5]])).take
          ((serializeWAL ([.put [1] [2], .del [1]] ++ [.put [3] [4, 5]])).length - 2))
        = applyOps [.put [1] [2], .del [1]] :=
  wal_recovery_roundtrip_and_truncation [.put [1] [2], .del [1]] (.put [3] [4, 5]) 2
    (by decide) (by decide) (by decide)

/-! ### Filter value-tag validation -/

/-- Schema data types (`entities/schema`; its declarations are not under
src/). -/
inductive DataType where
  | dtString
  | dtText
  | dtInt
  | dtNumber
  | dtBoolean
  | dtDate
  | dtGeoCoordinates
  | dtPhoneNumber
  | dtBlob
  | dtStringArray
  | dtTextArray
  | dtIntArray
  | dtNumberArray
  | dtBooleanArray
  | dtDateArray
  deriving DecidableEq, Repr

/-- The schema constant naming each data type. -/
def DataType.name : DataType → String
  | .dtString => "string"
  | .dtText => "text"
  | .dtInt => "int"
  | .dtNumber => "number"
  | .dtBoolean => "boolean"
  | .dtDate => "date"
  | .dtGeoCoordinates => "geoCoordinates"
  | .dtPhoneNumber => "phoneNumber"
  | .dtBlob => "blob"
  | .dtStringArray => "string[]"
  | .dtTextArray => "text[]"
  | .dtIntArray => "int[]"
  | .dtNumberArray => "number[]"
  | .dtBooleanArray => "boolean[]"
  | .dtDateArray => "date[]"

/-- Modelled from the spec: `schema.IsArrayType` (not under src/) — the
scalar base type of an array data type, none for a scalar type. -/
def DataType.arrayBase : DataType → Option DataType
  | .dtStringArray => some .dtString
  | .dtTextArray => some .dtText
  | .dtIntArray => some .dtInt
  | .dtNumberArray => some .dtNumber
  | .dtBooleanArray => some .dtBoolean
  | .dtDateArray => some .dtDate
  | _ => none

/-- Modelled from the spec: `valueNameFromDataType` (usecases/traverser, not
under src/) — the user-facing filter value tag of a data type. -/
def valueNameFromDataType : DataType → String
  | .dtString => "valueString"
  | .dtText => "valueText"
  | .dtInt => "valueInt"
  | .dtNumber => "valueNumber"
  | .dtBoolean => "valueBoolean"
  | .dtDate => "valueDate"
  | .dtGeoCoordinates => "valueGeoRange"
  | .dtPhoneNumber => "valuePhoneNumber"
  | .dtBlob => "valueBlob"
  | .dtStringArray => "valueStringArray"
  | .dtTextArray => "valueTextArray"
  | .dtIntArray => "valueIntArray"
  | .dtNumberArray => "valueNumberArray"
  | .dtBooleanArray => "valueBooleanArray"
  | .dtDateArray => "valueDateArray"

/-- The mismatch error of the value-tag check, naming the offending tag, the
property's declared type, and the tag to use instead (the format asserted by
`explorer_validate_filters_test.go`). -/
def tagErrorMsg (offending onType useInstead : String) : String :=
  "data type filter cannot use \"" ++ offending ++ "\" on type \"" ++ onType
    ++ "\", use \"" ++ useInstead ++ "\" instead"

/-- Modelled from the spec: the value-tag check of `ValidateFilters`
(usecases/traverser; only its tests are under src/): an array-typed property
must be filtered with the array's scalar base type as the value tag, a
scalar property with its own type; a mismatch is rejected with an error
naming the offending tag and the recommended tag. -/
def validateValueTag (propType tag : DataType) : Except String Unit :=
  let useInstead := match propType.arrayBase with
    | some base => base
    | none => propType
  if tag = useInstead then .ok ()
  else .error (tagErrorMsg (valueNameFromDataType tag) propType.name
    (valueNameFromDataType useInstead))

/-- C6: for every array-typed property and every value tag that differs from
the array's scalar base type, validation rejects the filter with an error
naming the offending tag and the scalar base type's tag as the one to use;
and the base type's tag is exactly the accepted one. -/
theorem validateValueTag_array_mismatch (propType tag base : DataType)
    (hbase : propType.arrayBase = some base) (hne : tag ≠ base) :
    validateValueTag propType tag
      = .error (tagErrorMsg (valueNameFromDataType tag) propType.name
          (valueNameFromDataType base))
    ∧ ∀ t : DataType, validateValueTag propType t = .ok () ↔ t = base := by
  have hval : ∀ t : DataType, validateValueTag propType t
      = if t = base then .ok ()
        else .error (tagErrorMsg (valueNameFromDataType t) propType.name
          (valueNameFromDataType base)) := by
    intro t
    simp [validateValueTag, hbase]
  refine ⟨by rw [hval tag, if_neg hne], fun t => ?_⟩
  rw [hval t]
  by_cases ht : t = base
  · simp [ht]
  · simp [ht]

/-- Witness for `validateValueTag_array_mismatch`: a string-tagged filter on
a numberArray property is rejected, telling the user to use valueNumber. -/
theorem validateValueTag_array_mismatch_witness :
    validateValueTag .dtNumberArray .dtString
      = .error (tagErrorMsg (valueNameFromDataType .dtString)
          (DataType.name .dtNumberArray) (valueNameFromDataType .dtNumber))
    ∧ ∀ t : DataType, validateValueTag .dtNumberArray t = .ok () ↔ t = .dtNumber :=
  validateValueTag_array_mismatch .dtNumberArray .dtString .dtNumber rfl (by decide)

end Weaviate
